import Mathlib

/-!
Verification development for the `ensembl_tui` ingestion core.

The definitions below are a shallow embedding of the Python sources:
  * `src/ensembl_lite/_maf.py`   — MAF block parser,
  * `src/ensembl_lite/install.py` — genome / alignment / homology ingestion,
  * `src/ensembl_cli/species.py`  — species-name resolution.

Python strings become `String` (with explicit character-list models of the
`str` methods used by the code), Python `int` becomes `Int`, Python `dict`
becomes an insertion-ordered association list with the same
update-in-place/append-at-end semantics, and code that can raise becomes
`Except`/`Option`-valued.
-/

set_option maxHeartbeats 1000000

/-! ## Character-level models of the Python `str` methods used by the sources -/

/-- Tokenizer loop for Python `line.strip().split()`: splits on runs of
whitespace and never produces empty tokens (so the leading `strip()` is
subsumed).  `cur` holds the characters of the current token in reverse. -/
def pyTokensAux (cur : List Char) : List Char → List (List Char)
  | [] => if cur = [] then [] else [cur.reverse]
  | c :: rest =>
    if c.isWhitespace then
      if cur = [] then pyTokensAux [] rest
      else cur.reverse :: pyTokensAux [] rest
    else pyTokensAux (c :: cur) rest

/-- Python `s.strip().split()` (whitespace split, empty tokens dropped). -/
def pySplit (s : String) : List String :=
  (pyTokensAux [] s.data).map (fun cs => ⟨cs⟩)

/-- Python substring containment `pat in hay`, on character lists. -/
def containsTok (pat : List Char) : List Char → Bool
  | [] => pat.isEmpty
  | c :: rest => pat.isPrefixOf (c :: rest) || containsTok pat rest

/-- Python `s.startswith(pre)`. -/
def pyStartsWith (s pre : String) : Bool :=
  pre.data.isPrefixOf s.data

/-- Helper for Python `src.split(".", maxsplit=1)`: split a character list at
its first `'.'`; `none` when no dot occurs (in which case the Python
two-variable unpacking raises `ValueError`). -/
def splitCharsAtFirstDot : List Char → Option (List Char × List Char)
  | [] => none
  | c :: rest =>
    if c = '.' then some ([], rest)
    else
      match splitCharsAtFirstDot rest with
      | none => none
      | some (a, b) => some (c :: a, b)

/-- Python `src.split(".", maxsplit=1)` unpacked into exactly two parts. -/
def splitFirstDot (s : String) : Option (String × String) :=
  match splitCharsAtFirstDot s.data with
  | none => none
  | some (a, b) => some (⟨a⟩, ⟨b⟩)

/-- Accumulator loop for decimal digit-string parsing. -/
def digitsToNatAux (acc : Nat) : List Char → Option Nat
  | [] => some acc
  | c :: rest =>
    if c.isDigit then digitsToNatAux (10 * acc + (c.toNat - 48)) rest
    else none

/-- Parse a non-empty list of decimal digits. -/
def digitsToNat : List Char → Option Nat
  | [] => none
  | c :: rest => digitsToNatAux 0 (c :: rest)

/-- Python `int(token)` on an optionally signed decimal token (the only shape
of numeric token appearing in the MAF fields); `none` where Python raises
`ValueError`. -/
def pyInt (s : String) : Option Int :=
  match s.data with
  | '-' :: rest => (digitsToNat rest).map (fun n => -(n : Int))
  | '+' :: rest => (digitsToNat rest).map (fun n => (n : Int))
  | cs => (digitsToNat cs).map (fun n => (n : Int))

/-- Python-style lower-casing, used to model `CaseInsensitiveString`. -/
def toLowerStr (s : String) : String := ⟨s.data.map Char.toLower⟩

/-! ## Coordinate identity (`MafName`) and `process_maf_line` -/

/-- Modelled from the spec: the coordinate-identity value type `MafName`
(`ensembl_lite/_name.py`, not among the given sources).  Per the spec it
carries species, seqid, strand-normalised `start`/`end` (0-based half-open,
expressed on the forward strand), the strand marker and the total source
sequence length, and two identities are equal iff all fields match.  The
source's field `end` is a Lean keyword; it is called `stop` here. -/
structure MafName where
  species : String
  seqid : String
  start : Int
  stop : Int
  strand : String
  coord_length : Int
  deriving DecidableEq

instance {ε α : Type} [DecidableEq ε] [DecidableEq α] : DecidableEq (Except ε α) :=
  fun x y =>
    match x, y with
    | .ok a, .ok b =>
      if h : a = b then isTrue (by rw [h]) else isFalse (by simp [h])
    | .error a, .error b =>
      if h : a = b then isTrue (by rw [h]) else isFalse (by simp [h])
    | .ok _, .error _ => isFalse (by simp)
    | .error _, .ok _ => isFalse (by simp)

/-- The strand normalisation step inside `process_maf_line`
(`_maf.py`, `if strand == "-": start = coord_length - (start + size)`). -/
def normalized_start (strand : String) (start size coord_length : Int) : Int :=
  if strand = "-" then coord_length - (start + size) else start

/-- The body of `_maf.py process_maf_line` after tokenization: the line must
have exactly 7 whitespace-separated fields; the source field is split at its
first dot into species/seqid, the numeric fields are parsed, the start is
normalised for reverse-strand lines and `end = start + size`.  `none`
wherever Python raises (wrong field count, no dot in the source field,
non-integer numeric field). -/
def processTokens : List String → Option (MafName × String)
  | [_, src_coord, start_tok, size_tok, strand, len_tok, seq] =>
    match splitFirstDot src_coord with
    | none => none
    | some (species, coord) =>
      match pyInt start_tok, pyInt size_tok, pyInt len_tok with
      | some start, some size, some coord_length =>
        let start1 := normalized_start strand start size coord_length
        some (⟨species, coord, start1, start1 + size, strand, coord_length⟩, seq)
      | _, _, _ => none
  | _ => none

/-- `_maf.py process_maf_line`: tokenize with `line.strip().split()` and
decode the fields via `processTokens`. -/
def process_maf_line (line : String) : Option (MafName × String) :=
  processTokens (pySplit line)

/-! ## MAF block parser (`_maf.py`) -/

namespace Maf

/-- The block-start test `line.startswith("a")`. -/
def isMarker (line : String) : Bool := pyStartsWith line "a"

/-- The scan loop of `_get_alignment_block_indices`: `i` is the index of the
next line, `start` the index of the currently open block's marker, `blocks`
the closed blocks so far.  At end of input the open block is closed at
`i - 1`, the index of the *last* line (Python appends `(start, i)` with `i`
still bound to the final value of the `enumerate` loop variable). -/
def blockIndicesGo (i : Nat) (start : Option Nat) (blocks : List (Nat × Nat)) :
    List String → List (Nat × Nat)
  | [] =>
    match start with
    | none => []
    | some s => blocks ++ [(s, i - 1)]
  | line :: rest =>
    if isMarker line then
      match start with
      | some s => blockIndicesGo (i + 1) (some i) (blocks ++ [(s, i)]) rest
      | none => blockIndicesGo (i + 1) (some i) blocks rest
    else blockIndicesGo (i + 1) start blocks rest

/-- `_maf.py _get_alignment_block_indices`. -/
def _get_alignment_block_indices (data : List String) : List (Nat × Nat) :=
  blockIndicesGo 0 none [] data

/-- The character list of the literal `"ancestral"`. -/
def ancestralTok : List Char := "ancestral".data

/-- The skip test in `_get_seqs`:
`not line.startswith("s") or "ancestral" in line[:100]`. -/
def skipLine (line : String) : Bool :=
  !(pyStartsWith line "s") || containsTok ancestralTok (line.data.take 100)

/-- Python `dict` insertion `alignment[n] = seq` on an insertion-ordered
association list: an existing key keeps its position and gets the new value,
a fresh key is appended at the end.  (Maps are only ever built from the empty
list, so keys are unique and replacing the first occurrence is replacing the
only one.) -/
def dictInsert : List (MafName × String) → MafName → String → List (MafName × String)
  | [], k, v => [(k, v)]
  | p :: rest, k, v => if p.1 = k then (k, v) :: rest else p :: dictInsert rest k v

/-- Python `dict` key lookup on the association-list model. -/
def dictLookup : List (MafName × String) → MafName → Option String
  | [], _ => none
  | p :: rest, k => if p.1 = k then some p.2 else dictLookup rest k

/-- The loop of `_maf.py _get_seqs`: skip non-`s`/ancestral lines, decode the
rest, last write wins on duplicate identities; a malformed retained line
aborts with an error (the Python exception), carrying that line. -/
def getSeqsGo (acc : List (MafName × String)) :
    List String → Except String (List (MafName × String))
  | [] => .ok acc
  | line :: rest =>
    if skipLine line then getSeqsGo acc rest
    else
      match process_maf_line line with
      | none => .error line
      | some (n, seq) => getSeqsGo (dictInsert acc n seq) rest

/-- `_maf.py _get_seqs`. -/
def _get_seqs (lines : List String) : Except String (List (MafName × String)) :=
  getSeqsGo [] lines

/-- The Python slice `data[start:end]`. -/
def slice (data : List String) (se : Nat × Nat) : List String :=
  (data.drop se.1).take (se.2 - se.1)

/-- The generator loop of `_maf.py parse`, yielding `_get_seqs` of each block
slice in order; the blocks produced before a malformed line are lost behind
the raised exception, so the whole run is modelled as `Except`. -/
def parseBlocks (data : List String) :
    List (Nat × Nat) → Except String (List (List (MafName × String)))
  | [] => .ok []
  | se :: rest =>
    match _get_seqs (slice data se) with
    | .error e => .error e
    | .ok b =>
      match parseBlocks data rest with
      | .error e => .error e
      | .ok bs => .ok (b :: bs)

/-- `_maf.py parse`, on the result of `readlines()` (the file and
decompression transport are external collaborators). -/
def parse (data : List String) : Except String (List (List (MafName × String))) :=
  parseBlocks data (_get_alignment_block_indices data)

/-- The retained-and-decoded sequence lines of a line list, in line order;
used to state which lines contribute entries to a block's map. -/
def decodedLines (lines : List String) : List (MafName × String) :=
  lines.filterMap (fun line => if skipLine line then none else process_maf_line line)

end Maf

/-! ## Species-name resolution (`species.py`) -/

/-- The four case-insensitive name maps held by `species.py SpeciesNameMap`
(`CaseInsensitiveString` keys are modelled by comparing lower-cased keys). -/
structure SpeciesNameMap where
  species_common : List (String × String)
  common_species : List (String × String)
  species_ensembl : List (String × String)
  ensembl_species : List (String × String)

/-- Case-insensitive dictionary lookup, the behaviour of Python dicts keyed by
`CaseInsensitiveString`. -/
def ciLookup (l : List (String × String)) (k : String) : Option String :=
  (l.find? (fun p => toLowerStr p.1 = toLowerStr k)).map Prod.snd

/-- `species.py SpeciesNameMap.get_common_name` with the default
`level="raise"` (the form used by `install.py`): map an Ensembl db prefix back
to the species name if possible, then look the common name up; an unknown
name yields the raised `ValueError`, modelled as `.error`. -/
def get_common_name (m : SpeciesNameMap) (name : String) : Except String String :=
  let name1 :=
    match ciLookup m.ensembl_species name with
    | some v => v
    | none => name
  let common : Option String :=
    match ciLookup m.species_common name1 with
    | some c => some c
    | none => if (ciLookup m.common_species name1).isSome then some name1 else none
  match common with
  | none => .error ("Unknown species name: " ++ name1)
  | some c => .ok c

/-- A concrete `SpeciesNameMap` holding one species (homo sapiens / human), in
the shape `amend_species` builds: species→common, common→species,
species→ensembl prefix, ensembl prefix→species. -/
def speciesMapHs : SpeciesNameMap :=
  ⟨[("homo sapiens", "human")], [("human", "homo sapiens")],
   [("homo sapiens", "homo_sapiens")], [("homo_sapiens", "homo sapiens")]⟩

/-! ## Genome sequence ingestion (`install.py`) -/

namespace Install

/-- `install.py _rename`: the first whitespace-delimited token of the label,
`label.split()[0]`; `none` when the label has no token at all (empty or
all-whitespace), where Python raises `IndexError`. -/
def _rename (label : String) : Option String := (pySplit label).head?

/-- Modelled from the spec: the compression codec collaborator
`elt_compress_it` (`ensembl_lite/util.py`, not among the given sources);
`compress(bytes) -> bytes`, lossless and self-describing, modelled as the
identity on the payload. -/
def elt_compress_it (s : String) : String := s

/-- The ways `install.py _get_seqs` can raise: `max()` on an empty label
`Counter` (Python `ValueError`), the duplicate-seqid `RuntimeError` carrying
the `multiples` map of labels with their counts, and the `IndexError` from
`label.split()[0]` inside `_rename` on a token-less label. -/
inductive GetSeqsError where
  | emptyInput
  | duplicates (multiples : List (String × Nat))
  | indexError
  deriving DecidableEq

/-- The final list comprehension of `install.py _get_seqs`,
`[(_rename(name), elt_compress_it(seq)) for name, seq in name_seqs]`,
evaluated left to right: `none` as soon as some label has no first token
(the Python `IndexError` raised inside `_rename`). -/
def renameAll : List (String × String) → Option (List (String × String))
  | [] => some []
  | p :: rest =>
    match _rename p.1 with
    | none => none
    | some r =>
      match renameAll rest with
      | none => none
      | some out => some ((r, elt_compress_it p.2) :: out)

/-- First-occurrence deduplication, giving the key order of a Python
`Counter` built from a list. -/
def dedupFirst : List String → List String
  | [] => []
  | n :: rest => n :: (dedupFirst rest).filter (fun x => x ≠ n)

/-- `install.py _get_seqs`, from the `MinimalFastaParser` output of one file
(the FASTA parsing itself is an external cogent3 collaborator): count the
*original* labels, fail with the labels occurring more than once if any,
otherwise emit `( _rename label, compressed seq)` pairs. -/
def _get_seqs (name_seqs : List (String × String)) :
    Except GetSeqsError (List (String × String)) :=
  if name_seqs = [] then .error .emptyInput
  else
    let labels := name_seqs.map Prod.fst
    let multiples :=
      (dedupFirst labels).filterMap
        (fun n => if 1 < labels.count n then some (n, labels.count n) else none)
    if multiples = [] then
      match renameAll name_seqs with
      | some out => .ok out
      | none => .error .indexError
    else .error (.duplicates multiples)

/-- `install.py _prepped_seqs` for one species: resolve the progress label via
`Species.get_common_name(src_dir.parent.name)` (an unknown name raises,
aborting before any file is read), then load each file's sequences and
concatenate — no cross-file uniqueness check is performed.  Worker results
arrive in completion order; the aggregate is modelled in submission order,
which the claims do not distinguish. -/
def _prepped_seqs (m : SpeciesNameMap) (dirName : String)
    (files : List (List (String × String))) :
    Except String (List (String × String)) :=
  match get_common_name m dirName with
  | .error e => .error e
  | .ok _ =>
    files.foldl
      (fun acc f =>
        match acc with
        | .error e => .error e
        | .ok all =>
          match _get_seqs f with
          | .error _ => .error "Some seqids not unique"
          | .ok seqs => .ok (all ++ seqs))
      (.ok [])

/-! ## Homology ingestion (`install.py`) -/

/-- The expected 7-column homology header, `LoadHomologies.src_cols`. -/
def src_cols : List String :=
  ["homology_type", "species", "gene_stable_id", "protein_stable_id",
   "homology_species", "homology_gene_stable_id", "homology_protein_stable_id"]

/-- `install.py LoadHomologies._matching_species`:
`{row[1], row[4]} <= self._allowed_species`, i.e. every element of the
two-element set built from the two species columns lies in the allowed set. -/
def _matching_species (allowed : List String) (row : List String) : Bool :=
  [row.getD 1 "", row.getD 4 ""].all (fun sp => allowed.contains sp)

/-- One staged homology TSV file, as seen through the cogent3
`FilteringParser` collaborator: its name, its header row, and its data rows
already projected onto the 7 `src_cols` columns. -/
structure TsvFile where
  name : String
  header : List String
  rows : List (List String)

/-- The per-file body of `LoadHomologies.__call__`: the reader yields the
header and the rows passing `_matching_species`; the header must equal
`src_cols` (the `assert`, fatal otherwise), and each surviving row gets the
file name appended. -/
def loadHomologiesFile (allowed : List String) (f : TsvFile) :
    Except String (List (List String)) :=
  if f.header = src_cols then
    .ok ((f.rows.filter (fun r => _matching_species allowed r)).map
      (fun r => r ++ [f.name]))
  else .error ("header mismatch for " ++ f.name)

/-- `LoadHomologies.__call__` over the files of one species directory,
extending `final` file by file; any header failure aborts the call. -/
def loadHomologies (allowed : List String) :
    List TsvFile → Except String (List (List String))
  | [] => .ok []
  | f :: rest =>
    match loadHomologiesFile allowed f with
    | .error e => .error e
    | .ok rows =>
      match loadHomologies allowed rest with
      | .error e => .error e
      | .ok more => .ok (rows ++ more)

/-- The sequential directory loop of `local_install_homology`; the homology
store is modelled (per the spec's store write contract) by the count of
records it has received via `add_records`. -/
def installHomologyLoop (allowed : List String) (db : Nat) :
    List (List TsvFile) → Except String Nat
  | [] => .ok db
  | dir :: rest =>
    match loadHomologies allowed dir with
    | .error e => .error e
    | .ok rows => installHomologyLoop allowed (db + rows.length) rest

/-- `install.py local_install_homology`: create the destination store, feed it
every directory's surviving rows, and after the loop delete the destination
file when the store received zero records (`no_records = len(db) == 0`;
`outpath.unlink()`).  Result: (does the destination file still exist, number
of records the store received). -/
def local_install_homology (allowed : List String) (dirs : List (List TsvFile)) :
    Except String (Bool × Nat) :=
  match installHomologyLoop allowed 0 dirs with
  | .error e => .error e
  | .ok n =>
    let no_records := n = 0
    .ok (if no_records then false else true, n)

/-- The total number of rows surviving the species filter over all
directories and files (headers assumed conforming). -/
def survivingCount (allowed : List String) (dirs : List (List TsvFile)) : Nat :=
  (dirs.map
    (fun dir =>
      (dir.map
        (fun f => (f.rows.filter (fun r => _matching_species allowed r)).length)).sum)).sum

end Install

/-! ## Lemmas about the first-dot split -/

theorem splitCharsAtFirstDot_eq_none (cs : List Char) :
    splitCharsAtFirstDot cs = none ↔ '.' ∉ cs := by
  induction cs with
  | nil => simp [splitCharsAtFirstDot]
  | cons c rest ih =>
    by_cases hc : c = '.'
    · subst hc
      simp [splitCharsAtFirstDot]
    · simp only [splitCharsAtFirstDot, if_neg hc, List.mem_cons]
      cases h : splitCharsAtFirstDot rest with
      | none =>
        rw [h] at ih
        simp only [true_iff] at ih
        constructor
        · intro _
          push_neg
          exact ⟨fun he => hc he.symm, ih⟩
        · intro _
          rfl
      | some ab =>
        obtain ⟨a, b⟩ := ab
        rw [h] at ih
        have hmem : '.' ∈ rest := by
          by_contra hnm
          exact absurd (ih.mpr hnm) (by simp)
        constructor
        · intro hcon
          simp at hcon
        · intro hcon
          exact absurd (Or.inr hmem) hcon

theorem splitCharsAtFirstDot_eq_some (cs : List Char) (a b : List Char)
    (h : splitCharsAtFirstDot cs = some (a, b)) :
    cs = a ++ '.' :: b ∧ '.' ∉ a := by
  induction cs generalizing a b with
  | nil => simp [splitCharsAtFirstDot] at h
  | cons c rest ih =>
    by_cases hc : c = '.'
    · subst hc
      simp only [splitCharsAtFirstDot, if_pos rfl, Option.some.injEq, Prod.mk.injEq] at h
      obtain ⟨rfl, rfl⟩ := h
      simp
    · simp only [splitCharsAtFirstDot, if_neg hc] at h
      cases hrest : splitCharsAtFirstDot rest with
      | none => rw [hrest] at h; cases h
      | some ab =>
        obtain ⟨a', b'⟩ := ab
        rw [hrest] at h
        simp only [Option.some.injEq, Prod.mk.injEq] at h
        obtain ⟨rfl, rfl⟩ := h
        obtain ⟨he, hn⟩ := ih a' b' hrest
        constructor
        · simp [he]
        · simp only [List.mem_cons]
          push_neg
          exact ⟨fun hcon => hc hcon.symm, hn⟩

theorem splitFirstDot_some (s sp co : String) (h : splitFirstDot s = some (sp, co)) :
    s.data = sp.data ++ '.' :: co.data ∧ '.' ∉ sp.data := by
  unfold splitFirstDot at h
  cases hc : splitCharsAtFirstDot s.data with
  | none => rw [hc] at h; cases h
  | some ab =>
    obtain ⟨a, b⟩ := ab
    rw [hc] at h
    simp only [Option.some.injEq, Prod.mk.injEq] at h
    obtain ⟨hsp, hco⟩ := h
    obtain ⟨he, hn⟩ := splitCharsAtFirstDot_eq_some s.data a b hc
    subst hsp; subst hco
    exact ⟨he, hn⟩

theorem splitFirstDot_none (s : String) (h : '.' ∉ s.data) :
    splitFirstDot s = none := by
  unfold splitFirstDot
  rw [(splitCharsAtFirstDot_eq_none s.data).mpr h]

/-! ## Claim C10: the source field is split at its first dot only -/

/-- C10: `process_maf_line` splits the source field at its *first* dot: the
species is the dot-free part before the first dot and the seqid is the entire
remainder (which may contain further dots); when the source field has no dot
at all the decode fails, even on an otherwise well-formed 7-field line. -/
theorem C10_source_field_first_dot (line t0 src f2 f3 f4 f5 f6 : String)
    (hsplit : pySplit line = [t0, src, f2, f3, f4, f5, f6]) :
    ('.' ∉ src.data → process_maf_line line = none) ∧
    (∀ n seq, process_maf_line line = some (n, seq) →
      src = n.species ++ "." ++ n.seqid ∧ '.' ∉ n.species.data) := by
  constructor
  · intro hd
    unfold process_maf_line
    rw [hsplit]
    simp only [processTokens]
    rw [splitFirstDot_none src hd]
  · intro n seq h
    unfold process_maf_line at h
    rw [hsplit] at h
    simp only [processTokens] at h
    cases hsd : splitFirstDot src with
    | none => rw [hsd] at h; simp at h
    | some spco =>
      obtain ⟨sp, co⟩ := spco
      rw [hsd] at h
      obtain ⟨hdata, hnd⟩ := splitFirstDot_some src sp co hsd
      cases h2 : pyInt f2 with
      | none => rw [h2] at h; simp at h
      | some start =>
        cases h3 : pyInt f3 with
        | none => rw [h2, h3] at h; simp at h
        | some size =>
          cases h5 : pyInt f5 with
          | none => rw [h2, h3, h5] at h; simp at h
          | some clen =>
            rw [h2, h3, h5] at h
            simp only [Option.some.injEq, Prod.mk.injEq] at h
            obtain ⟨hname, -⟩ := h
            have hspecies : n.species = sp := by rw [← hname]
            have hseqid : n.seqid = co := by rw [← hname]
            rw [hspecies, hseqid]
            constructor
            · apply String.ext
              simp only [String.data_append]
              simpa using hdata
            · exact hnd

/-- Witness for C10 on a concrete line whose seqid itself contains a dot. -/
theorem C10_source_field_first_dot_witness :
    pySplit "s hs.chr1.alt 0 1 + 5 ACGT" =
      ["s", "hs.chr1.alt", "0", "1", "+", "5", "ACGT"] ∧
    (('.' ∉ "hs.chr1.alt".data →
        process_maf_line "s hs.chr1.alt 0 1 + 5 ACGT" = none) ∧
      (∀ n seq, process_maf_line "s hs.chr1.alt 0 1 + 5 ACGT" = some (n, seq) →
        "hs.chr1.alt" = n.species ++ "." ++ n.seqid ∧ '.' ∉ n.species.data)) :=
  ⟨by decide,
   C10_source_field_first_dot "s hs.chr1.alt 0 1 + 5 ACGT" "s" "hs.chr1.alt"
     "0" "1" "+" "5" "ACGT" (by decide)⟩

/-! ## Claim C1: strand normalisation of coordinates -/

/-- C1 (amended): for a reverse-strand line the normalised start is
`coord_length - (start + size)` and, whenever the raw fields satisfy
`0 ≤ start`, `0 < size` and `start + size ≤ coord_length`, it satisfies
`0 ≤ start_normalized < start_normalized + size ≤ coord_length`; a
forward-strand line leaves `start` unchanged, and in both cases
`end = start_normalized + size`. -/
theorem C1_strand_normalization (start size coord_length : Int)
    (h0 : 0 ≤ start) (hsz : 0 < size) (hend : start + size ≤ coord_length) :
    normalized_start "-" start size coord_length = coord_length - (start + size) ∧
    0 ≤ normalized_start "-" start size coord_length ∧
    normalized_start "-" start size coord_length
      < normalized_start "-" start size coord_length + size ∧
    normalized_start "-" start size coord_length + size ≤ coord_length ∧
    normalized_start "+" start size coord_length = start := by
  have h1 : normalized_start "-" start size coord_length
      = coord_length - (start + size) := by
    unfold normalized_start
    rw [if_pos rfl]
  have h2 : normalized_start "+" start size coord_length = start := by
    unfold normalized_start
    rw [if_neg (by decide)]
  refine ⟨h1, ?_, ?_, ?_, h2⟩ <;> rw [h1] <;> omega

/-- Witness for C1 (amended) at `start = 2`, `size = 3`, `coord_length = 10`. -/
theorem C1_strand_normalization_witness :
    ((0 : Int) ≤ 2 ∧ (0 : Int) < 3 ∧ (2 : Int) + 3 ≤ 10) ∧
    (normalized_start "-" 2 3 10 = 10 - (2 + 3) ∧
      0 ≤ normalized_start "-" 2 3 10 ∧
      normalized_start "-" 2 3 10 < normalized_start "-" 2 3 10 + 3 ∧
      normalized_start "-" 2 3 10 + 3 ≤ 10 ∧
      normalized_start "+" 2 3 10 = 2) :=
  ⟨by refine ⟨by norm_num, by norm_num, by norm_num⟩,
   C1_strand_normalization 2 3 10 (by norm_num) (by norm_num) (by norm_num)⟩

/-- C1 counterexample: on the line `s hs.chr1 0 0 - 5 A` the raw fields
satisfy the claim's hypotheses `0 ≤ start` and `start + size ≤ coord_length`
(`start = 0`, `size = 0`, `coord_length = 5`), yet the produced coordinates
are `start_normalized = end = 5`, so the claimed strict chain
`start_normalized < start_normalized + size` fails. -/
theorem C1_counterexample :
    (process_maf_line "s hs.chr1 0 0 - 5 A").map
      (fun p => (p.1.start, p.1.stop)) = some (5, 5) ∧
    (0 : Int) ≤ 0 ∧ (0 : Int) + 0 ≤ 5 ∧ ¬((5 : Int) < 5) := by
  refine ⟨by decide, by norm_num, by norm_num, by norm_num⟩

/-! ## Lemmas about the MAF block scan -/

namespace Maf

theorem blockIndicesGo_length_some (rest : List String) :
    ∀ i s blocks, (blockIndicesGo i (some s) blocks rest).length
      = blocks.length + 1 + rest.countP isMarker := by
  induction rest with
  | nil =>
    intro i s blocks
    simp [blockIndicesGo, List.countP_nil]
  | cons line rest ih =>
    intro i s blocks
    cases hm : isMarker line with
    | true =>
      simp [blockIndicesGo, hm, ih, List.countP_cons]
      omega
    | false =>
      simp [blockIndicesGo, hm, ih, List.countP_cons]

theorem blockIndicesGo_length_none (rest : List String) :
    ∀ i, (blockIndicesGo i none [] rest).length = rest.countP isMarker := by
  induction rest with
  | nil =>
    intro i
    simp [blockIndicesGo, List.countP_nil]
  | cons line rest ih =>
    intro i
    cases hm : isMarker line with
    | true =>
      simp [blockIndicesGo, hm, blockIndicesGo_length_some, List.countP_cons]
      omega
    | false =>
      simp [blockIndicesGo, hm, ih, List.countP_cons]

theorem block_indices_length (data : List String) :
    (_get_alignment_block_indices data).length = data.countP isMarker :=
  blockIndicesGo_length_none data 0

theorem blockIndicesGo_some_no_marker (rest : List String) :
    ∀ i s blocks, (∀ l ∈ rest, isMarker l = false) →
      blockIndicesGo i (some s) blocks rest
        = blocks ++ [(s, i + rest.length - 1)] := by
  induction rest with
  | nil =>
    intro i s blocks _
    simp [blockIndicesGo]
  | cons line rest ih =>
    intro i s blocks h
    have hm : isMarker line = false := h line (by simp)
    simp only [blockIndicesGo, hm, Bool.false_eq_true, if_false]
    rw [ih (i + 1) s blocks (fun l hl => h l (by simp [hl]))]
    have he : i + 1 + rest.length - 1 = i + (rest.length + 1) - 1 := by omega
    simp [he]

theorem blockIndicesGo_none_one_marker (rest : List String) :
    ∀ i, rest.countP isMarker = 1 →
      blockIndicesGo i none [] rest
        = [(i + rest.findIdx isMarker, i + rest.length - 1)] := by
  induction rest with
  | nil =>
    intro i h
    simp [List.countP_nil] at h
  | cons line rest ih =>
    intro i h
    cases hm : isMarker line with
    | true =>
      rw [List.countP_cons, hm] at h
      simp at h
      simp only [blockIndicesGo, hm, if_true]
      rw [blockIndicesGo_some_no_marker rest (i + 1) i [] h]
      have he : i + 1 + rest.length - 1 = i + (rest.length + 1) - 1 := by omega
      simp [List.findIdx_cons, hm, he]
    | false =>
      rw [List.countP_cons, hm] at h
      simp at h
      simp only [blockIndicesGo, hm, Bool.false_eq_true, if_false]
      rw [ih (i + 1) h]
      have h1 : i + 1 + rest.findIdx isMarker = i + (rest.findIdx isMarker + 1) := by
        omega
      have h2 : i + 1 + rest.length - 1 = i + (rest.length + 1) - 1 := by omega
      simp [List.findIdx_cons, hm, h1, h2]

theorem one_marker_block (data : List String) (h : data.countP isMarker = 1) :
    _get_alignment_block_indices data
      = [(data.findIdx isMarker, data.length - 1)] := by
  have hgo := blockIndicesGo_none_one_marker data 0 h
  simpa [_get_alignment_block_indices] using hgo

theorem parseBlocks_ok (data : List String) :
    ∀ idxs bs, parseBlocks data idxs = .ok bs →
      bs.length = idxs.length ∧
      ∀ k se, idxs.get? k = some se →
        ∃ b, bs.get? k = some b ∧ _get_seqs (slice data se) = .ok b := by
  intro idxs
  induction idxs with
  | nil =>
    intro bs h
    simp only [parseBlocks] at h
    simp at h
    subst h
    simp
  | cons se rest ih =>
    intro bs h
    simp only [parseBlocks] at h
    cases hg : _get_seqs (slice data se) with
    | error e => rw [hg] at h; simp at h
    | ok b =>
      rw [hg] at h
      cases hp : parseBlocks data rest with
      | error e => rw [hp] at h; simp at h
      | ok bs2 =>
        rw [hp] at h
        simp at h
        subst h
        obtain ⟨hlen, hmem⟩ := ih bs2 hp
        refine ⟨by simp [hlen], ?_⟩
        intro k se2 hk
        cases k with
        | zero =>
          simp at hk
          subst hk
          exact ⟨b, by simp, hg⟩
        | succ k =>
          simp only [List.get?_cons_succ] at hk ⊢
          exact hmem k se2 hk

theorem getSeqsGo_all_skip :
    ∀ lines acc, (∀ line ∈ lines, skipLine line = true) →
      getSeqsGo acc lines = .ok acc := by
  intro lines
  induction lines with
  | nil =>
    intro acc _
    rfl
  | cons line rest ih =>
    intro acc hall
    have hskip : skipLine line = true := hall line (by simp)
    simp only [getSeqsGo, hskip, if_true]
    exact ih acc (fun l hl => hall l (by simp [hl]))

end Maf

/-! ## Claim C2: block count and the end-of-stream boundary -/

/-- C2 (amended): the parser yields exactly one block per block-start marker
line (`startswith("a")`), and a stream with zero markers yields zero blocks;
but the single block of a one-marker stream spans `[marker index, last line
index)`, an interval whose *exclusive* upper bound is the index of the final
line, so a retained sequence line sitting on the stream's final line is not
part of any block. -/
theorem C2_block_count (data : List String) (bs : List (List (MafName × String)))
    (h : Maf.parse data = .ok bs) :
    bs.length = data.countP Maf.isMarker ∧
    (Maf._get_alignment_block_indices data).length = data.countP Maf.isMarker ∧
    (data.countP Maf.isMarker = 0 → bs = []) ∧
    (data.countP Maf.isMarker = 1 →
      Maf._get_alignment_block_indices data
        = [(data.findIdx Maf.isMarker, data.length - 1)]) := by
  have hspec := Maf.parseBlocks_ok data (Maf._get_alignment_block_indices data) bs h
  have hlen : bs.length = data.countP Maf.isMarker := by
    rw [hspec.1, Maf.block_indices_length data]
  refine ⟨hlen, Maf.block_indices_length data, ?_, fun h1 => Maf.one_marker_block data h1⟩
  intro h0
  have : bs.length = 0 := by rw [hlen, h0]
  exact List.length_eq_zero.mp this

/-- Witness for C2 (amended) on a concrete three-line stream with one marker. -/
theorem C2_block_count_witness :
    Maf.parse ["a\n", "s hs.chr1 0 1 + 5 A\n", "x\n"]
      = .ok [[(⟨"hs", "chr1", 0, 1, "+", 5⟩, "A")]] ∧
    ([[(⟨"hs", "chr1", 0, 1, "+", 5⟩, "A")]] :
        List (List (MafName × String))).length
      = ["a\n", "s hs.chr1 0 1 + 5 A\n", "x\n"].countP Maf.isMarker ∧
    (Maf._get_alignment_block_indices ["a\n", "s hs.chr1 0 1 + 5 A\n", "x\n"]).length
      = ["a\n", "s hs.chr1 0 1 + 5 A\n", "x\n"].countP Maf.isMarker ∧
    (["a\n", "s hs.chr1 0 1 + 5 A\n", "x\n"].countP Maf.isMarker = 0 →
      ([[(⟨"hs", "chr1", 0, 1, "+", 5⟩, "A")]] :
        List (List (MafName × String))) = []) ∧
    (["a\n", "s hs.chr1 0 1 + 5 A\n", "x\n"].countP Maf.isMarker = 1 →
      Maf._get_alignment_block_indices ["a\n", "s hs.chr1 0 1 + 5 A\n", "x\n"]
        = [(["a\n", "s hs.chr1 0 1 + 5 A\n", "x\n"].findIdx Maf.isMarker,
            ["a\n", "s hs.chr1 0 1 + 5 A\n", "x\n"].length - 1)]) :=
  ⟨by decide,
   C2_block_count ["a\n", "s hs.chr1 0 1 + 5 A\n", "x\n"]
     [[(⟨"hs", "chr1", 0, 1, "+", 5⟩, "A")]] (by decide)⟩

/-- C2 counterexample: a stream whose single marker is followed by one valid,
retained sequence line on the stream's *final* line.  The parser yields one
block, but its map is empty — the final line is excluded by the
`(start, i)` boundary with `i` the last line index — refuting the claim that
a retained sequence line on the final line appears in the block's output
map. -/
theorem C2_counterexample :
    Maf.parse ["a\n", "s hs.chr1 0 1 + 5 A"] = .ok [[]] ∧
    Maf.skipLine "s hs.chr1 0 1 + 5 A" = false ∧
    (process_maf_line "s hs.chr1 0 1 + 5 A").isSome = true := by
  refine ⟨by decide, by decide, by decide⟩

/-! ## Claim C3: blocks with zero sequence lines -/

/-- C3 (amended): a block containing zero retained sequence lines is *not*
skipped — `parse` emits it as an empty map, at its position in block order. -/
theorem C3_empty_block_emitted (data : List String)
    (bs : List (List (MafName × String))) (k : Nat) (se : Nat × Nat)
    (h : Maf.parse data = .ok bs)
    (hk : (Maf._get_alignment_block_indices data).get? k = some se)
    (hall : ∀ line ∈ Maf.slice data se, Maf.skipLine line = true) :
    bs.get? k = some [] := by
  obtain ⟨-, hmem⟩ := Maf.parseBlocks_ok data (Maf._get_alignment_block_indices data) bs h
  obtain ⟨b, hb, hgs⟩ := hmem k se hk
  have hempty : Maf._get_seqs (Maf.slice data se) = .ok [] :=
    Maf.getSeqsGo_all_skip (Maf.slice data se) [] hall
  rw [hempty] at hgs
  simp at hgs
  rw [hb, hgs]

/-- Witness for C3 (amended): the stream `["a\n", "x\n"]` has one block,
`(0, 1)`, whose slice `["a\n"]` contains no sequence line; `parse` emits it
as the empty map. -/
theorem C3_empty_block_emitted_witness :
    (Maf.parse ["a\n", "x\n"] = .ok [[]] ∧
      (Maf._get_alignment_block_indices ["a\n", "x\n"]).get? 0 = some (0, 1) ∧
      (∀ line ∈ Maf.slice ["a\n", "x\n"] (0, 1), Maf.skipLine line = true)) ∧
    ([[]] : List (List (MafName × String))).get? 0 = some [] :=
  ⟨⟨by decide, by decide, by decide⟩,
   C3_empty_block_emitted ["a\n", "x\n"] [[]] 0 (0, 1)
     (by decide) (by decide) (by decide)⟩

/-- C3 counterexample: on the single-line stream `["a"]` the parser emits one
block whose output map is empty, refuting the claim that no element of the
produced sequence of block maps is an empty map. -/
theorem C3_counterexample :
    Maf.parse ["a"] = .ok [[]] := by decide

/-! ## Lemmas about the block map: membership, lookup, duplicate handling -/

namespace Maf

/-- The value held at key `k` after folding the updates of `ds` over a default:
the model of "last write wins" used to state the duplicate-identity claim. -/
def lastUpd (k : MafName) (ds : List (MafName × String)) (dflt : Option String) :
    Option String :=
  ds.foldl (fun prev p => if p.1 = k then some p.2 else prev) dflt

theorem dictInsert_mem (m : List (MafName × String)) (k : MafName) (v : String)
    (p : MafName × String) (hp : p ∈ dictInsert m k v) :
    p ∈ m ∨ p = (k, v) := by
  induction m with
  | nil =>
    simp [dictInsert] at hp
    exact Or.inr hp
  | cons q rest ih =>
    by_cases hq : q.1 = k
    · rw [dictInsert, if_pos hq] at hp
      rcases List.mem_cons.mp hp with h | h
      · exact Or.inr h
      · exact Or.inl (List.mem_cons_of_mem q h)
    · rw [dictInsert, if_neg hq] at hp
      rcases List.mem_cons.mp hp with h | h
      · exact Or.inl (h ▸ List.mem_cons_self q rest)
      · rcases ih h with h2 | h2
        · exact Or.inl (List.mem_cons_of_mem q h2)
        · exact Or.inr h2

theorem dictLookup_insert_self (m : List (MafName × String)) (k : MafName)
    (v : String) : dictLookup (dictInsert m k v) k = some v := by
  induction m with
  | nil => simp [dictInsert, dictLookup]
  | cons q rest ih =>
    by_cases hq : q.1 = k
    · rw [dictInsert, if_pos hq]
      simp [dictLookup]
    · rw [dictInsert, if_neg hq]
      rw [dictLookup, if_neg hq]
      exact ih

theorem dictLookup_insert_ne (m : List (MafName × String)) (k k' : MafName)
    (v : String) (hne : k' ≠ k) :
    dictLookup (dictInsert m k v) k' = dictLookup m k' := by
  induction m with
  | nil =>
    have h1 : ¬(k = k') := fun h => hne h.symm
    simp [dictInsert, dictLookup, h1]
  | cons q rest ih =>
    by_cases hq : q.1 = k
    · rw [dictInsert, if_pos hq]
      rw [dictLookup, dictLookup]
      have h1 : ¬(k = k') := fun h => hne h.symm
      have h2 : ¬(q.1 = k') := by rw [hq]; exact h1
      rw [if_neg h1, if_neg h2]
    · rw [dictInsert, if_neg hq]
      rw [dictLookup, dictLookup]
      by_cases hq' : q.1 = k'
      · rw [if_pos hq', if_pos hq']
      · rw [if_neg hq', if_neg hq']
        exact ih

theorem dictLookup_mem (m : List (MafName × String)) (k : MafName) (v : String)
    (h : dictLookup m k = some v) : k ∈ m.map Prod.fst := by
  induction m with
  | nil => simp [dictLookup] at h
  | cons q rest ih =>
    by_cases hq : q.1 = k
    · simp [hq.symm]
    · rw [dictLookup, if_neg hq] at h
      simp [ih h]

theorem dictInsert_keys_mem (m : List (MafName × String)) (k : MafName)
    (v : String) (x : MafName) (hx : x ∈ (dictInsert m k v).map Prod.fst) :
    x ∈ m.map Prod.fst ∨ x = k := by
  obtain ⟨p, hp, hpx⟩ := List.mem_map.mp hx
  rcases dictInsert_mem m k v p hp with h | h
  · exact Or.inl (hpx ▸ List.mem_map_of_mem Prod.fst h)
  · right
    rw [← hpx, h]

theorem dictInsert_keys_nodup (m : List (MafName × String)) (k : MafName)
    (v : String) (h : (m.map Prod.fst).Nodup) :
    ((dictInsert m k v).map Prod.fst).Nodup := by
  induction m with
  | nil => simp [dictInsert]
  | cons q rest ih =>
    simp only [List.map_cons, List.nodup_cons] at h
    obtain ⟨hq1, hq2⟩ := h
    by_cases hq : q.1 = k
    · rw [dictInsert, if_pos hq]
      simp only [List.map_cons, List.nodup_cons]
      exact ⟨hq ▸ hq1, hq2⟩
    · rw [dictInsert, if_neg hq]
      simp only [List.map_cons, List.nodup_cons]
      refine ⟨?_, ih hq2⟩
      intro hcon
      rcases dictInsert_keys_mem rest k v q.1 hcon with h2 | h2
      · exact hq1 h2
      · exact hq h2

theorem getSeqsGo_total (lines : List String) :
    ∀ acc, (∀ line ∈ lines, skipLine line = false → (process_maf_line line).isSome) →
      ∃ m, getSeqsGo acc lines = .ok m := by
  induction lines with
  | nil =>
    intro acc _
    exact ⟨acc, rfl⟩
  | cons line rest ih =>
    intro acc hwf
    cases hskip : skipLine line with
    | true =>
      simp only [getSeqsGo, hskip, if_true]
      exact ih acc (fun l hl h => hwf l (by simp [hl]) h)
    | false =>
      have hsome := hwf line (by simp) hskip
      cases hproc : process_maf_line line with
      | none => rw [hproc] at hsome; simp at hsome
      | some pr =>
        obtain ⟨n, s⟩ := pr
        simp only [getSeqsGo, hskip, Bool.false_eq_true, if_false, hproc]
        exact ih (dictInsert acc n s) (fun l hl h => hwf l (by simp [hl]) h)

theorem getSeqsGo_mem (lines : List String) :
    ∀ acc m, getSeqsGo acc lines = .ok m →
      ∀ p ∈ m, p ∈ acc ∨
        ∃ line ∈ lines, skipLine line = false ∧ process_maf_line line = some p := by
  induction lines with
  | nil =>
    intro acc m h p hp
    simp only [getSeqsGo] at h
    simp at h
    subst h
    exact Or.inl hp
  | cons line rest ih =>
    intro acc m h p hp
    cases hskip : skipLine line with
    | true =>
      rw [getSeqsGo, hskip] at h
      simp only [if_true] at h
      rcases ih acc m h p hp with h2 | ⟨l, hl, hsk, hpr⟩
      · exact Or.inl h2
      · exact Or.inr ⟨l, by simp [hl], hsk, hpr⟩
    | false =>
      rw [getSeqsGo, hskip] at h
      simp only [Bool.false_eq_true, if_false] at h
      cases hproc : process_maf_line line with
      | none => rw [hproc] at h; simp at h
      | some pr =>
        obtain ⟨n, s⟩ := pr
        rw [hproc] at h
        rcases ih (dictInsert acc n s) m h p hp with h2 | ⟨l, hl, hsk, hpr⟩
        · rcases dictInsert_mem acc n s p h2 with h3 | h3
          · exact Or.inl h3
          · exact Or.inr ⟨line, by simp, hskip, by rw [hproc, h3]⟩
        · exact Or.inr ⟨l, by simp [hl], hsk, hpr⟩

theorem getSeqsGo_keys_nodup (lines : List String) :
    ∀ acc m, getSeqsGo acc lines = .ok m → (acc.map Prod.fst).Nodup →
      (m.map Prod.fst).Nodup := by
  induction lines with
  | nil =>
    intro acc m h hacc
    simp only [getSeqsGo] at h
    simp at h
    subst h
    exact hacc
  | cons line rest ih =>
    intro acc m h hacc
    cases hskip : skipLine line with
    | true =>
      rw [getSeqsGo, hskip] at h
      simp only [if_true] at h
      exact ih acc m h hacc
    | false =>
      rw [getSeqsGo, hskip] at h
      simp only [Bool.false_eq_true, if_false] at h
      cases hproc : process_maf_line line with
      | none => rw [hproc] at h; simp at h
      | some pr =>
        obtain ⟨n, s⟩ := pr
        rw [hproc] at h
        exact ih (dictInsert acc n s) m h (dictInsert_keys_nodup acc n s hacc)

theorem getSeqsGo_lookup (lines : List String) :
    ∀ acc m, getSeqsGo acc lines = .ok m →
      ∀ k, dictLookup m k = lastUpd k (decodedLines lines) (dictLookup acc k) := by
  induction lines with
  | nil =>
    intro acc m h k
    simp only [getSeqsGo] at h
    simp at h
    subst h
    rfl
  | cons line rest ih =>
    intro acc m h k
    cases hskip : skipLine line with
    | true =>
      rw [getSeqsGo, hskip] at h
      simp only [if_true] at h
      have hdec : decodedLines (line :: rest) = decodedLines rest := by
        simp [decodedLines, List.filterMap_cons, hskip]
      rw [hdec]
      exact ih acc m h k
    | false =>
      rw [getSeqsGo, hskip] at h
      simp only [Bool.false_eq_true, if_false] at h
      cases hproc : process_maf_line line with
      | none => rw [hproc] at h; simp at h
      | some pr =>
        obtain ⟨n, s⟩ := pr
        rw [hproc] at h
        have hdec : decodedLines (line :: rest) = (n, s) :: decodedLines rest := by
          simp [decodedLines, List.filterMap_cons, hskip, hproc]
        rw [hdec]
        have hstep : lastUpd k ((n, s) :: decodedLines rest)
            (dictLookup acc k)
            = lastUpd k (decodedLines rest)
                (if n = k then some s else dictLookup acc k) := rfl
        rw [hstep]
        have hins : dictLookup (dictInsert acc n s) k
            = if n = k then some s else dictLookup acc k := by
          by_cases hk : n = k
          · rw [if_pos hk, ← hk]
            exact dictLookup_insert_self acc n s
          · rw [if_neg hk]
            exact dictLookup_insert_ne acc n k s (fun h2 => hk h2.symm)
        rw [← hins]
        exact ih (dictInsert acc n s) m h k

theorem lastUpd_getLast (k : MafName) (ds : List (MafName × String))
    (dflt : Option String) (p : MafName × String)
    (h : (ds.filter (fun q => q.1 = k)).getLast? = some p) :
    lastUpd k ds dflt = some p.2 := by
  induction ds using List.reverseRecOn with
  | nil => simp at h
  | append_singleton ds q ih =>
    rw [List.filter_append] at h
    by_cases hq : q.1 = k
    · have hfq : List.filter (fun q => decide (q.1 = k)) [q] = [q] := by
        simp [hq]
      rw [hfq, List.getLast?_concat] at h
      have hpq : p = q := by injection h with h2; exact h2.symm
      unfold lastUpd
      rw [List.foldl_append]
      simp [hpq, hq]
    · have hfq : List.filter (fun q => decide (q.1 = k)) [q] = [] := by
        simp [hq]
      rw [hfq, List.append_nil] at h
      unfold lastUpd
      rw [List.foldl_append]
      have hih := ih h
      unfold lastUpd at hih
      simp [hq, hih]

theorem exists_getLast (l : List (MafName × String)) (h : l ≠ []) :
    ∃ p, l.getLast? = some p := by
  cases l with
  | nil => exact absurd rfl h
  | cons a as => exact ⟨(a :: as).getLast (by simp), List.getLast?_eq_getLast _ (by simp)⟩

end Maf

/-! ## Claim C6: ancestral lines never contribute entries -/

/-- C6: every (identity, sequence) pair of every block emitted by `parse`
derives from some input line that begins with `s` and whose first 100
characters do not contain `"ancestral"`; in particular no line containing
`"ancestral"` in its first 100 characters contributes an entry. -/
theorem C6_no_ancestral (data : List String) (bs : List (List (MafName × String)))
    (h : Maf.parse data = .ok bs) :
    ∀ b ∈ bs, ∀ p ∈ b, ∃ line ∈ data,
      pyStartsWith line "s" = true ∧
      containsTok Maf.ancestralTok (line.data.take 100) = false ∧
      process_maf_line line = some p := by
  intro b hb p hp
  obtain ⟨hlen, hmem⟩ :=
    Maf.parseBlocks_ok data (Maf._get_alignment_block_indices data) bs h
  obtain ⟨k, hk⟩ := List.mem_iff_get?.mp hb
  have hklt : k < bs.length := by
    rcases List.get?_eq_some.mp hk with ⟨hlt, -⟩
    exact hlt
  have hkidx : k < (Maf._get_alignment_block_indices data).length := by
    rw [← hlen]
    exact hklt
  obtain ⟨se, hse⟩ :
      ∃ se, (Maf._get_alignment_block_indices data).get? k = some se := by
    cases hse : (Maf._get_alignment_block_indices data).get? k with
    | none =>
      rw [List.get?_eq_none] at hse
      omega
    | some se => exact ⟨se, rfl⟩
  obtain ⟨b2, hb2, hgs⟩ := hmem k se hse
  have hbb : b2 = b := by
    rw [hk] at hb2
    injection hb2 with hb3
    exact hb3.symm
  subst hbb
  rcases Maf.getSeqsGo_mem (Maf.slice data se) [] b2 hgs p hp with
    habs | ⟨line, hline, hsk, hpr⟩
  · simp at habs
  · have hmemdata : line ∈ data :=
      List.mem_of_mem_drop (List.mem_of_mem_take hline)
    cases hstart : pyStartsWith line "s" with
    | false =>
      exfalso
      unfold Maf.skipLine at hsk
      rw [hstart] at hsk
      simp at hsk
    | true =>
      cases hanc : containsTok Maf.ancestralTok (line.data.take 100) with
      | true =>
        exfalso
        unfold Maf.skipLine at hsk
        rw [hanc] at hsk
        simp at hsk
      | false =>
        exact ⟨line, hmemdata, hstart, hanc, hpr⟩

/-- Witness for C6 on a stream containing an ancestral sequence line. -/
theorem C6_no_ancestral_witness :
    Maf.parse ["a\n", "s ancestral.chr1 0 1 + 5 A\n", "s hs.chr1 0 1 + 5 C\n", "x\n"]
      = .ok [[(⟨"hs", "chr1", 0, 1, "+", 5⟩, "C")]] ∧
    (∀ b ∈ ([[(⟨"hs", "chr1", 0, 1, "+", 5⟩, "C")]] :
        List (List (MafName × String))), ∀ p ∈ b,
      ∃ line ∈ ["a\n", "s ancestral.chr1 0 1 + 5 A\n", "s hs.chr1 0 1 + 5 C\n", "x\n"],
        pyStartsWith line "s" = true ∧
        containsTok Maf.ancestralTok (line.data.take 100) = false ∧
        process_maf_line line = some p) :=
  ⟨by decide,
   C6_no_ancestral
     ["a\n", "s ancestral.chr1 0 1 + 5 A\n", "s hs.chr1 0 1 + 5 C\n", "x\n"]
     [[(⟨"hs", "chr1", 0, 1, "+", 5⟩, "C")]] (by decide)⟩

/-! ## Claim C7: duplicate identities within one block, last write wins -/

/-- C7: if the retained sequence lines of a block decode the identity `n`
more than once, the block still succeeds (no error), its map holds exactly
one entry for `n`, and the value of that entry is the gapped sequence of the
*last* such line in line order. -/
theorem C7_duplicate_last_wins (lines : List String) (n : MafName)
    (hwf : ∀ line ∈ lines, Maf.skipLine line = false →
      (process_maf_line line).isSome)
    (hdup : 1 < ((Maf.decodedLines lines).filter (fun q => q.1 = n)).length) :
    ∃ m, Maf._get_seqs lines = .ok m ∧
      (m.map Prod.fst).count n = 1 ∧
      ∃ p, ((Maf.decodedLines lines).filter (fun q => q.1 = n)).getLast? = some p ∧
        Maf.dictLookup m n = some p.2 := by
  obtain ⟨m, hm⟩ := Maf.getSeqsGo_total lines [] hwf
  have hne : (Maf.decodedLines lines).filter (fun q => q.1 = n) ≠ [] := by
    intro he
    rw [he] at hdup
    simp at hdup
  obtain ⟨p, hp⟩ := Maf.exists_getLast _ hne
  have hlook : Maf.dictLookup m n = some p.2 := by
    have h1 := Maf.getSeqsGo_lookup lines [] m hm n
    rw [h1]
    exact Maf.lastUpd_getLast n (Maf.decodedLines lines) none p hp
  have hmem : n ∈ m.map Prod.fst := Maf.dictLookup_mem m n p.2 hlook
  have hnodup := Maf.getSeqsGo_keys_nodup lines [] m hm (by simp)
  have hle := List.nodup_iff_count_le_one.mp hnodup n
  have hpos : 0 < (m.map Prod.fst).count n := List.count_pos_iff.mpr hmem
  exact ⟨m, hm, by omega, p, hp, hlook⟩

/-- Witness for C7 on a block repeating one identity with two different
gapped sequences; the emitted value is the second ("C"). -/
theorem C7_duplicate_last_wins_witness :
    ((∀ line ∈ ["s hs.chr1 0 1 + 5 A", "s hs.chr1 0 1 + 5 C"],
        Maf.skipLine line = false → (process_maf_line line).isSome) ∧
      1 < ((Maf.decodedLines ["s hs.chr1 0 1 + 5 A", "s hs.chr1 0 1 + 5 C"]).filter
        (fun q => q.1 = (⟨"hs", "chr1", 0, 1, "+", 5⟩ : MafName))).length) ∧
    (∃ m, Maf._get_seqs ["s hs.chr1 0 1 + 5 A", "s hs.chr1 0 1 + 5 C"] = .ok m ∧
      (m.map Prod.fst).count (⟨"hs", "chr1", 0, 1, "+", 5⟩ : MafName) = 1 ∧
      ∃ p, ((Maf.decodedLines ["s hs.chr1 0 1 + 5 A", "s hs.chr1 0 1 + 5 C"]).filter
          (fun q => q.1 = (⟨"hs", "chr1", 0, 1, "+", 5⟩ : MafName))).getLast? = some p ∧
        Maf.dictLookup m (⟨"hs", "chr1", 0, 1, "+", 5⟩ : MafName) = some p.2) :=
  ⟨⟨by decide, by decide⟩,
   C7_duplicate_last_wins ["s hs.chr1 0 1 + 5 A", "s hs.chr1 0 1 + 5 C"]
     ⟨"hs", "chr1", 0, 1, "+", 5⟩ (by decide) (by decide)⟩

/-! ## Lemmas about genome-sequence ingestion (`install.py _get_seqs`) -/

theorem mem_dedupFirst (x : String) (l : List String) :
    x ∈ Install.dedupFirst l ↔ x ∈ l := by
  induction l with
  | nil => simp [Install.dedupFirst]
  | cons n rest ih =>
    by_cases hx : x = n
    · subst hx
      simp [Install.dedupFirst]
    · simp [Install.dedupFirst, List.mem_filter, hx, ih]

/-! ## Claim C4: duplicate-identifier checking in genome ingestion -/

/-- The rename comprehension succeeds and renames every label to its first
whitespace token when every label has one. -/
theorem renameAll_all_some (l : List (String × String))
    (h : ∀ p ∈ l, (Install._rename p.1).isSome) :
    Install.renameAll l
      = some (l.map (fun p => ((Install._rename p.1).getD "",
          Install.elt_compress_it p.2))) := by
  induction l with
  | nil => rfl
  | cons q rest ih =>
    have hq := h q (by simp)
    cases hr : Install._rename q.1 with
    | none => rw [hr] at hq; simp at hq
    | some r =>
      simp only [Install.renameAll]
      rw [hr, ih (fun p hp => h p (by simp [hp]))]
      simp [hr]

/-- The rename comprehension fails (Python `IndexError`) as soon as some
label has no first token. -/
theorem renameAll_none (l : List (String × String))
    (h : ∃ p ∈ l, Install._rename p.1 = none) :
    Install.renameAll l = none := by
  induction l with
  | nil => simp at h
  | cons q rest ih =>
    obtain ⟨p, hp, hnone⟩ := h
    rcases List.mem_cons.mp hp with hq | hrest
    · subst hq
      simp only [Install.renameAll]
      rw [hnone]
    · simp only [Install.renameAll]
      cases hr : Install._rename q.1 with
      | none => rfl
      | some r =>
        rw [ih ⟨p, hrest, hnone⟩]

/-- C4 (amended): `install.py _get_seqs` checks uniqueness of the *original*
(pre-rename) identifiers, and only within one file: if every original label
is unique (and every label tokenizes) the file succeeds, with every
identifier renamed to its first whitespace token *after* the check; a
token-less label raises instead (`IndexError`); if some original label
repeats, the file fails and the reported `multiples` map holds exactly the
labels occurring more than once, with their counts.  Renamed-identifier
collisions, and duplicates across different files of one species, are not
detected. -/
theorem C4_per_file_pre_rename_uniqueness (name_seqs : List (String × String))
    (hne : name_seqs ≠ []) :
    ((∀ p ∈ name_seqs, (Install._rename p.1).isSome) →
      (∀ n, (name_seqs.map Prod.fst).count n ≤ 1) →
      Install._get_seqs name_seqs =
        .ok (name_seqs.map
          (fun p => ((Install._rename p.1).getD "",
            Install.elt_compress_it p.2)))) ∧
    ((∃ p ∈ name_seqs, Install._rename p.1 = none) →
      (∀ n, (name_seqs.map Prod.fst).count n ≤ 1) →
      Install._get_seqs name_seqs = .error .indexError) ∧
    (∀ n, 1 < (name_seqs.map Prod.fst).count n →
      ∃ mult, Install._get_seqs name_seqs = .error (.duplicates mult) ∧
        (∀ x c, (x, c) ∈ mult ↔
          (x ∈ name_seqs.map Prod.fst ∧
            c = (name_seqs.map Prod.fst).count x ∧ 1 < c))) := by
  have hmultOf : (∀ n, (name_seqs.map Prod.fst).count n ≤ 1) →
      (Install.dedupFirst (name_seqs.map Prod.fst)).filterMap
        (fun n => if 1 < (name_seqs.map Prod.fst).count n
          then some (n, (name_seqs.map Prod.fst).count n) else none) = [] := by
    intro hcount
    rw [List.filterMap_eq_nil_iff]
    intro a _
    rw [if_neg]
    have := hcount a
    omega
  refine ⟨?_, ?_, ?_⟩
  · intro hlab hcount
    unfold Install._get_seqs
    rw [if_neg hne]
    rw [renameAll_all_some name_seqs hlab]
    simp [hmultOf hcount]
  · intro hbad hcount
    unfold Install._get_seqs
    rw [if_neg hne]
    rw [renameAll_none name_seqs hbad]
    simp [hmultOf hcount]
  · intro n hdup
    refine ⟨(Install.dedupFirst (name_seqs.map Prod.fst)).filterMap
      (fun m => if 1 < (name_seqs.map Prod.fst).count m
        then some (m, (name_seqs.map Prod.fst).count m) else none), ?_, ?_⟩
    · unfold Install._get_seqs
      rw [if_neg hne]
      have hmemn : n ∈ name_seqs.map Prod.fst :=
        List.count_pos_iff.mp (by omega)
      have hmm : (n, (name_seqs.map Prod.fst).count n) ∈
          (Install.dedupFirst (name_seqs.map Prod.fst)).filterMap
            (fun m => if 1 < (name_seqs.map Prod.fst).count m
              then some (m, (name_seqs.map Prod.fst).count m) else none) :=
        List.mem_filterMap.mpr
          ⟨n, (mem_dedupFirst n _).mpr hmemn, by rw [if_pos hdup]⟩
      have hnnil : (Install.dedupFirst (name_seqs.map Prod.fst)).filterMap
          (fun m => if 1 < (name_seqs.map Prod.fst).count m
            then some (m, (name_seqs.map Prod.fst).count m) else none) ≠ [] := by
        intro he
        rw [he] at hmm
        simp at hmm
      simp only [if_neg hnnil]
    · intro x c
      constructor
      · intro hx
        obtain ⟨a, ha, hfa⟩ := List.mem_filterMap.mp hx
        by_cases hca : 1 < (name_seqs.map Prod.fst).count a
        · rw [if_pos hca] at hfa
          simp only [Option.some.injEq, Prod.mk.injEq] at hfa
          obtain ⟨h1, h2⟩ := hfa
          subst h1
          exact ⟨(mem_dedupFirst a _).mp ha, h2.symm, h2 ▸ hca⟩
        · rw [if_neg hca] at hfa
          cases hfa
      · rintro ⟨hmemx, hc, hlt⟩
        refine List.mem_filterMap.mpr ⟨x, (mem_dedupFirst x _).mpr hmemx, ?_⟩
        rw [if_pos (hc ▸ hlt), ← hc]

/-- Witness for C4 (amended) on a one-file input whose original labels
collide exactly twice. -/
theorem C4_per_file_pre_rename_uniqueness_witness :
    ([("chr1", "AC"), ("chr1", "GG")] : List (String × String)) ≠ [] ∧
    (((∀ p ∈ ([("chr1", "AC"), ("chr1", "GG")] : List (String × String)),
        (Install._rename p.1).isSome) →
      (∀ n, ((([("chr1", "AC"), ("chr1", "GG")] :
          List (String × String))).map Prod.fst).count n ≤ 1) →
      Install._get_seqs [("chr1", "AC"), ("chr1", "GG")] =
        .ok (([("chr1", "AC"), ("chr1", "GG")] :
          List (String × String)).map
          (fun p => ((Install._rename p.1).getD "",
            Install.elt_compress_it p.2)))) ∧
    ((∃ p ∈ ([("chr1", "AC"), ("chr1", "GG")] : List (String × String)),
        Install._rename p.1 = none) →
      (∀ n, ((([("chr1", "AC"), ("chr1", "GG")] :
          List (String × String))).map Prod.fst).count n ≤ 1) →
      Install._get_seqs [("chr1", "AC"), ("chr1", "GG")] = .error .indexError) ∧
    (∀ n, 1 < ((([("chr1", "AC"), ("chr1", "GG")] :
          List (String × String))).map Prod.fst).count n →
      ∃ mult, Install._get_seqs [("chr1", "AC"), ("chr1", "GG")] =
          .error (.duplicates mult) ∧
        (∀ x c, (x, c) ∈ mult ↔
          (x ∈ (([("chr1", "AC"), ("chr1", "GG")] :
              List (String × String))).map Prod.fst ∧
            c = ((([("chr1", "AC"), ("chr1", "GG")] :
              List (String × String))).map Prod.fst).count x ∧ 1 < c)))) :=
  ⟨by decide,
   C4_per_file_pre_rename_uniqueness [("chr1", "AC"), ("chr1", "GG")] (by decide)⟩

/-- C4 counterexample: two FASTA records whose labels `"chr1 alpha"` and
`"chr1 beta"` are distinct *before* renaming but both rename to `"chr1"`:
`_get_seqs` succeeds and emits the colliding renamed identifiers, so
uniqueness of the *renamed* identifiers is not what is verified; and two
files each containing a sequence named `"chr1"` pass the per-file check, so
duplicates across one species' combined input are not detected either. -/
theorem C4_counterexample :
    Install._get_seqs [("chr1 alpha", "AC"), ("chr1 beta", "GG")] =
      .ok [("chr1", "AC"), ("chr1", "GG")] ∧
    Install._prepped_seqs speciesMapHs "homo_sapiens"
      [[("chr1", "AC")], [("chr1", "GG")]] =
      .ok [("chr1", "AC"), ("chr1", "GG")] := by
  refine ⟨by decide, by decide⟩

/-! ## Claim C5: the homology species filter -/

/-- C5: a homology row passes `LoadHomologies._matching_species` iff both of
its species fields (columns 1 and 4) are members of the allowed set; rows of
a conforming file surviving the filter are exactly those with both species
allowed; and with allowed = {human, mouse} a (human, mouse) row survives
while a (human, rat) row is dropped. -/
theorem C5_matching_species :
    (∀ (allowed : List String) (row : List String),
      Install._matching_species allowed row = true ↔
        (row.getD 1 "" ∈ allowed ∧ row.getD 4 "" ∈ allowed)) ∧
    (∀ (allowed : List String) (f : Install.TsvFile) (r : List String),
      r ∈ f.rows.filter (fun row => Install._matching_species allowed row) ↔
        (r ∈ f.rows ∧ r.getD 1 "" ∈ allowed ∧ r.getD 4 "" ∈ allowed)) ∧
    Install._matching_species ["human", "mouse"]
      ["ortholog_one2one", "human", "g1", "p1", "mouse", "g2", "p2"] = true ∧
    Install._matching_species ["human", "mouse"]
      ["ortholog_one2one", "human", "g1", "p1", "rat", "g2", "p2"] = false := by
  have hbase : ∀ (allowed : List String) (row : List String),
      Install._matching_species allowed row = true ↔
        (row.getD 1 "" ∈ allowed ∧ row.getD 4 "" ∈ allowed) := by
    intro allowed row
    simp [Install._matching_species]
  refine ⟨hbase, ?_, by decide, by decide⟩
  intro allowed f r
  rw [List.mem_filter, hbase allowed r]

/-! ## Claim C8: empty-result policy of homology ingestion -/

theorem loadHomologiesFile_length (allowed : List String) (f : Install.TsvFile)
    (rows : List (List String))
    (h : Install.loadHomologiesFile allowed f = .ok rows) :
    rows.length
      = (f.rows.filter (fun r => Install._matching_species allowed r)).length := by
  unfold Install.loadHomologiesFile at h
  by_cases hh : f.header = Install.src_cols
  · rw [if_pos hh] at h
    simp only [Except.ok.injEq] at h
    rw [← h]
    simp
  · rw [if_neg hh] at h
    cases h

theorem loadHomologies_length (allowed : List String) :
    ∀ files rows, Install.loadHomologies allowed files = .ok rows →
      rows.length = (files.map (fun f =>
        (f.rows.filter (fun r => Install._matching_species allowed r)).length)).sum := by
  intro files
  induction files with
  | nil =>
    intro rows h
    simp only [Install.loadHomologies] at h
    simp at h
    subst h
    simp
  | cons f rest ih =>
    intro rows h
    simp only [Install.loadHomologies] at h
    cases hf : Install.loadHomologiesFile allowed f with
    | error e => rw [hf] at h; simp at h
    | ok r1 =>
      rw [hf] at h
      cases hr : Install.loadHomologies allowed rest with
      | error e => rw [hr] at h; simp at h
      | ok r2 =>
        rw [hr] at h
        simp at h
        subst h
        rw [List.length_append, loadHomologiesFile_length allowed f r1 hf, ih r2 hr]
        simp

theorem installHomologyLoop_count (allowed : List String) :
    ∀ dirs db n, Install.installHomologyLoop allowed db dirs = .ok n →
      n = db + Install.survivingCount allowed dirs := by
  intro dirs
  induction dirs with
  | nil =>
    intro db n h
    simp only [Install.installHomologyLoop] at h
    simp at h
    subst h
    simp [Install.survivingCount]
  | cons dir rest ih =>
    intro db n h
    simp only [Install.installHomologyLoop] at h
    cases hd : Install.loadHomologies allowed dir with
    | error e => rw [hd] at h; simp at h
    | ok rows =>
      rw [hd] at h
      have hn := ih (db + rows.length) n h
      rw [hn, loadHomologies_length allowed dir rows hd]
      simp only [Install.survivingCount, List.map_cons, List.sum_cons]
      omega

/-- C8: when `local_install_homology` completes, the number of records the
store received is the total number of rows surviving the species filter over
all directories, and the destination file exists afterwards iff that number
is nonzero: a zero-record run deletes the file, a nonzero run leaves it. -/
theorem C8_empty_result_policy (allowed : List String)
    (dirs : List (List Install.TsvFile)) (ex : Bool) (n : Nat)
    (h : Install.local_install_homology allowed dirs = .ok (ex, n)) :
    n = Install.survivingCount allowed dirs ∧
    (n = 0 → ex = false) ∧ (n ≠ 0 → ex = true) := by
  unfold Install.local_install_homology at h
  cases hl : Install.installHomologyLoop allowed 0 dirs with
  | error e => rw [hl] at h; cases h
  | ok n2 =>
    rw [hl] at h
    simp only [Except.ok.injEq, Prod.mk.injEq] at h
    obtain ⟨hex, hn⟩ := h
    have hc := installHomologyLoop_count allowed dirs 0 n2 hl
    refine ⟨by omega, ?_, ?_⟩
    · intro hz
      rw [← hex, if_pos (show n2 = 0 by omega)]
    · intro hz
      rw [← hex, if_neg (show ¬n2 = 0 by omega)]

/-- Witness for C8 on one directory with one conforming file: one row
survives (human, mouse), one is dropped (human, rat), and the destination
file is left in place. -/
theorem C8_empty_result_policy_witness :
    Install.local_install_homology ["human", "mouse"]
      [[⟨"f.tsv", Install.src_cols,
         [["ortholog_one2one", "human", "g1", "p1", "mouse", "g2", "p2"],
          ["ortholog_one2one", "human", "g1", "p1", "rat", "g2", "p2"]]⟩]]
      = .ok (true, 1) ∧
    ((1 : Nat) = Install.survivingCount ["human", "mouse"]
      [[⟨"f.tsv", Install.src_cols,
         [["ortholog_one2one", "human", "g1", "p1", "mouse", "g2", "p2"],
          ["ortholog_one2one", "human", "g1", "p1", "rat", "g2", "p2"]]⟩]] ∧
      ((1 : Nat) = 0 → true = false) ∧ ((1 : Nat) ≠ 0 → true = true)) :=
  ⟨by decide,
   C8_empty_result_policy ["human", "mouse"]
     [[⟨"f.tsv", Install.src_cols,
        [["ortholog_one2one", "human", "g1", "p1", "mouse", "g2", "p2"],
         ["ortholog_one2one", "human", "g1", "p1", "rat", "g2", "p2"]]⟩]]
     true 1 (by decide)⟩

/-! ## Claim C9: unknown species name aborts genome ingestion -/

/-- C9 (code behaviour at the failing input): `_prepped_seqs` resolves the
progress label through `Species.get_common_name` with its default
`level="raise"`, so a species directory name missing from the species table
(here `mus_musculus` against a table holding only homo sapiens) raises
`ValueError: Unknown species name: ...` and aborts ingestion for that
species before any sequence file is read — even though the same files load
fine (third conjunct).  The spec requires such a failure to affect only
progress labelling. -/
theorem C9_unknown_species_aborts :
    get_common_name speciesMapHs "mus_musculus" =
      .error "Unknown species name: mus_musculus" ∧
    Install._get_seqs [("chr1", "ACGT")] = .ok [("chr1", "ACGT")] ∧
    Install._prepped_seqs speciesMapHs "mus_musculus" [[("chr1", "ACGT")]] =
      .error "Unknown species name: mus_musculus" := by
  refine ⟨by decide, by decide, by decide⟩
